import Mathlib

/-!
Verification development for the Archon resilience layer.

This file gives a shallow embedding of the three core modules
(`src/tools/circuit_breaker.py`, `src/tools/advanced_cache.py`,
`src/tools/multi_region.py` and
`src/infra/modules/multi_region/health_checker.py`) and proves, or
refutes, the specified properties of the circuit breaker, the tiered
cache and the multi-region failover manager.

Timestamps (Python `time.time()`) are modelled as integers; the wrapped
operation of a breaker-protected call is modelled by its outcome
(success, classified failure, unexpected failure); network backends
(Redis, DynamoDB) are external services, so the cache backend chain is
modelled as a chain of in-process stores, which is the backend that is
always present and whose storage semantics the chain shares.
-/

namespace Archon

/-! ## Circuit breaker (src/tools/circuit_breaker.py) -/

/-- The three breaker states (`CircuitState` in the source; `OPEN` is
rendered `opened` because `open` is a Lean keyword). -/
inductive CircuitState where
  | closed
  | opened
  | halfOpen
deriving DecidableEq, Repr

/-- `CircuitBreakerConfig` from the source. The classification predicate
(`expected_exception`) is folded into the call outcome below. -/
structure CircuitBreakerConfig where
  failure_threshold : Nat
  recovery_timeout : Int
  success_threshold : Nat
  timeout : Int
deriving DecidableEq, Repr

/-- Mutable breaker state plus its immutable config. -/
structure CircuitBreaker where
  config : CircuitBreakerConfig
  state : CircuitState
  failure_count : Nat
  success_count : Nat
  last_failure_time : Option Int
  last_success_time : Option Int
deriving DecidableEq, Repr

/-- Outcome of running the wrapped operation: it returns normally, it
raises an exception matching `config.expected_exception` (a classified
failure), or it raises any other exception. -/
inductive CallOutcome where
  | success
  | expectedFail
  | unexpectedFail
deriving DecidableEq, Repr

/-- Result of `CircuitBreaker.call` as seen by the caller. -/
inductive CallResult where
  | ok
  | rejectedOpen
  | raisedExpected
  | raisedUnexpected
deriving DecidableEq, Repr

/-- `CircuitBreaker._should_attempt_reset`. -/
def CircuitBreaker.shouldAttemptReset (cb : CircuitBreaker) (now : Int) : Bool :=
  match cb.last_failure_time with
  | none => true
  | some t => decide (now - t ≥ cb.config.recovery_timeout)

/-- `CircuitBreaker._on_success`. -/
def CircuitBreaker.onSuccess (cb : CircuitBreaker) (now : Int) : CircuitBreaker :=
  let cb := { cb with last_success_time := some now }
  if cb.state = .halfOpen then
    let sc := cb.success_count + 1
    if sc ≥ cb.config.success_threshold then
      { cb with state := .closed, failure_count := 0, success_count := 0 }
    else
      { cb with success_count := sc }
  else
    { cb with failure_count := 0 }

/-- `CircuitBreaker._on_failure`. -/
def CircuitBreaker.onFailure (cb : CircuitBreaker) (now : Int) : CircuitBreaker :=
  let fc := cb.failure_count + 1
  let cb := { cb with failure_count := fc, last_failure_time := some now }
  if fc ≥ cb.config.failure_threshold then
    { cb with state := .opened }
  else
    cb

/-- The `try`/`except` body of `CircuitBreaker.call`: run the operation
and dispatch on its outcome (unexpected exceptions do not touch breaker
state). -/
def CircuitBreaker.exec (cb : CircuitBreaker) (outcome : CallOutcome) (now : Int) :
    CallResult × CircuitBreaker :=
  match outcome with
  | .success => (.ok, cb.onSuccess now)
  | .expectedFail => (.raisedExpected, cb.onFailure now)
  | .unexpectedFail => (.raisedUnexpected, cb)

/-- `CircuitBreaker.call`: the OPEN gate followed by execution. -/
def CircuitBreaker.call (cb : CircuitBreaker) (outcome : CallOutcome) (now : Int) :
    CallResult × CircuitBreaker :=
  if cb.state = .opened then
    if cb.shouldAttemptReset now then
      CircuitBreaker.exec { cb with state := .halfOpen } outcome now
    else
      (.rejectedOpen, cb)
  else
    CircuitBreaker.exec cb outcome now

/-- Run a sequence of breaker-protected calls, each given by the outcome
its operation would have and the wall-clock time of the call. -/
def runCalls (cb : CircuitBreaker) : List (CallOutcome × Int) → CircuitBreaker
  | [] => cb
  | (o, t) :: rest => runCalls (cb.call o t).2 rest

/-- `okRuns f c tr` holds when, starting with `c` consecutive classified
failures already counted, every maximal run of consecutive classified
failures in the trace `tr` stays strictly below the threshold `f`
(successes reset the run; unexpected failures leave it unchanged). -/
def okRuns (f : Nat) : Nat → List (CallOutcome × Int) → Bool
  | _, [] => true
  | _, (.success, _) :: rest => okRuns f 0 rest
  | c, (.expectedFail, _) :: rest => decide (c + 1 < f) && okRuns f (c + 1) rest
  | c, (.unexpectedFail, _) :: rest => okRuns f c rest

/-! ## Tiered cache (src/tools/advanced_cache.py) -/

/-- JSON-serializable Python values: the payloads and call arguments the
cache handles. -/
inductive PyVal where
  | pstr : String → PyVal
  | pint : Int → PyVal
  | pbool : Bool → PyVal
  | pnone : PyVal
  | plist : List PyVal → PyVal

/-- JSON rendering of a string literal. -/
def jstr (s : String) : String := "\"" ++ s ++ "\""

/-- JSON serialization of a value (`json.dumps` on the supported
fragment; Python tuples and lists both render as arrays). -/
def encodeVal : PyVal → String
  | .pstr s => jstr s
  | .pint n => toString n
  | .pbool b => if b then "true" else "false"
  | .pnone => "null"
  | .plist xs => "[" ++ String.intercalate ", " (xs.attach.map (fun x => encodeVal x.1)) ++ "]"
decreasing_by
  simp only [PyVal.plist.sizeOf_spec]
  have h := List.sizeOf_lt_of_mem x.2
  omega

/-- Python's `sorted(kwargs.items())`: keyword arguments sorted by key
(dict keys are distinct, so the comparison never reaches the values). -/
def sortKwargs (kwargs : List (String × PyVal)) : List (String × PyVal) :=
  List.insertionSort (fun a b => a.1 ≤ b.1) kwargs

/-- The canonical string `AdvancedCache._generate_key` hashes:
`json.dumps(key_data, sort_keys=True)` where `key_data` maps
`"namespace"`, `"args"` and `"kwargs"` (with `"args" < "kwargs" <
"namespace"` in key order). -/
def keyString (ns : String) (args : List PyVal) (kwargs : List (String × PyVal)) : String :=
  "\x7b\"args\": " ++ encodeVal (.plist args) ++
    ", \"kwargs\": " ++
      encodeVal (.plist ((sortKwargs kwargs).map (fun kv => .plist [.pstr kv.1, kv.2]))) ++
    ", \"namespace\": " ++ jstr ns ++ "\x7d"

/-- `AdvancedCache._generate_key`. `md5hex` is the hex digest function
(a pure function of the serialized string); `prefixKey` is the
configured `key_prefix`. -/
def generateKey (md5hex : String → String) ( prefixKey ns : String)
    (args : List PyVal) (kwargs : List (String × PyVal)) : String :=
  prefixKey ++ ":" ++ ns ++ ":" ++ md5hex (keyString ns args kwargs)

/-- `CacheItem` from the source. -/
structure CacheItem where
  key : String
  value : PyVal
  created_at : Int
  expires_at : Int
  hits : Nat

/-- `CacheItem.is_expired` (the source reads `time.time()`; here the
clock is the explicit argument `now`). -/
def CacheItem.isExpired (it : CacheItem) (now : Int) : Bool :=
  decide (now > it.expires_at)

/-- Association lists model Python dicts: lookup. -/
def alGet {α : Type} : List (String × α) → String → Option α
  | [], _ => none
  | (k, v) :: rest, key => if k = key then some v else alGet rest key

/-- Python dict assignment: update in place if the key is present
(keeping its position, as dicts do), else append. -/
def alSet {α : Type} : List (String × α) → String → α → List (String × α)
  | [], key, v => [(key, v)]
  | (k, w) :: rest, key, v =>
    if k = key then (k, v) :: rest else (k, w) :: alSet rest key v

/-- Python dict deletion (keys are unique, so removing the first
occurrence is exact). -/
def alDel {α : Type} : List (String × α) → String → List (String × α)
  | [], _ => []
  | (k, w) :: rest, key => if k = key then rest else (k, w) :: alDel rest key

/-- The keys of a dict, in insertion order. -/
def alKeys {α : Type} (l : List (String × α)) : List String := l.map Prod.fst

/-- Tail of Python's `min(keys, key=...)`: keep the current best,
replacing it only on a strictly smaller value (so ties keep the earliest
key, as `min` does). -/
def alArgminGo (bk : String) (bv : Int) : List (String × Int) → String
  | [] => bk
  | (k, v) :: rest => if v < bv then alArgminGo k v rest else alArgminGo bk bv rest

/-- `min(self._access_times.keys(), key=lambda k: self._access_times[k])`,
`none` on an empty dict. -/
def alArgmin : List (String × Int) → Option String
  | [] => none
  | (k, v) :: rest => some (alArgminGo k v rest)

/-- `MemoryCache`: the in-process bounded store. -/
structure MemoryCache where
  max_items : Nat
  cache : List (String × CacheItem)
  access_times : List (String × Int)

/-- A fresh `MemoryCache(max_items)`. -/
def MemoryCache.empty (maxItems : Nat) : MemoryCache :=
  { max_items := maxItems, cache := [], access_times := [] }

/-- `MemoryCache.get`: a non-expired hit bumps the hit counter and the
access timestamp; an expired hit removes the item from both maps. -/
def MemoryCache.get (m : MemoryCache) (key : String) (now : Int) :
    Option CacheItem × MemoryCache :=
  match alGet m.cache key with
  | some item =>
    if !(item.isExpired now) then
      let item' := { item with hits := item.hits + 1 }
      (some item',
        { m with cache := alSet m.cache key item',
                 access_times := alSet m.access_times key now })
    else
      (none,
        { m with cache := alDel m.cache key,
                 access_times := alDel m.access_times key })
  | none => (none, m)

/-- `MemoryCache._evict_oldest`: drop the key with the oldest access
timestamp from both maps (a no-op on an empty access map). -/
def MemoryCache.evictOldest (m : MemoryCache) : MemoryCache :=
  match alArgmin m.access_times with
  | none => m
  | some k =>
    { m with cache := alDel m.cache k, access_times := alDel m.access_times k }

/-- `MemoryCache.set`: evict the oldest-accessed entry when full and the
key is new, then store the item and stamp its access time. -/
def MemoryCache.set (m : MemoryCache) (key : String) (item : CacheItem) (now : Int) :
    MemoryCache :=
  let m :=
    if m.cache.length ≥ m.max_items ∧ (alGet m.cache key).isNone then
      m.evictOldest
    else
      m
  { m with cache := alSet m.cache key item,
           access_times := alSet m.access_times key now }

/-- `MemoryCache.delete`: remove the key from both maps. -/
def MemoryCache.delete (m : MemoryCache) (key : String) : MemoryCache :=
  { m with cache := alDel m.cache key, access_times := alDel m.access_times key }

/-- `CacheConfig` (the fields the pure behaviour depends on; `prefixKey`
is the source's `key_prefix`). -/
structure CacheConfig where
  ttl_seconds : Int
  max_memory_items : Nat
  prefixKey : String
deriving DecidableEq, Repr

/-- The backend probe loop of `AdvancedCache.get`: ask each backend in
order, return the first hit that is not expired, and thread the backend
state updates (hit counters, lazy expiry) through. -/
def advGetGo (key : String) (now : Int) :
    List MemoryCache → Option PyVal × List MemoryCache
  | [] => (none, [])
  | st :: rest =>
    let (it?, st') := st.get key now
    match it? with
    | some item =>
      if !(item.isExpired now) then
        (some item.value, st' :: rest)
      else
        let (v, rest') := advGetGo key now rest
        (v, st' :: rest')
    | none =>
      let (v, rest') := advGetGo key now rest
      (v, st' :: rest')

/-- `AdvancedCache.get`. -/
def advGet (md5hex : String → String) (cfg : CacheConfig) (stores : List MemoryCache)
    (ns : String) (args : List PyVal) (kwargs : List (String × PyVal)) (now : Int) :
    Option PyVal × List MemoryCache :=
  advGetGo (generateKey md5hex cfg.prefixKey ns args kwargs) now stores

/-- `AdvancedCache.set`: derive the key, resolve the ttl with Python's
`ttl_seconds or self.config.ttl_seconds` (0 is falsy), build the item
with `expires_at = now + ttl`, and write it to every backend; success
means at least one backend accepted (the in-process store always does). -/
def advSet (md5hex : String → String) (cfg : CacheConfig) (stores : List MemoryCache)
    (ns : String) (value : PyVal) (ttl_seconds : Option Int)
    (args : List PyVal) (kwargs : List (String × PyVal)) (now : Int) :
    List MemoryCache × Bool :=
  let key := generateKey md5hex cfg.prefixKey ns args kwargs
  let ttl := match ttl_seconds with
    | some t => if t = 0 then cfg.ttl_seconds else t
    | none => cfg.ttl_seconds
  let item : CacheItem :=
    { key := key, value := value, created_at := now, expires_at := now + ttl, hits := 0 }
  (stores.map (fun st => st.set key item now), !stores.isEmpty)

/-- Operations on the in-process store, for invariant traces. -/
inductive CacheOp where
  | get (key : String) (now : Int)
  | set (key : String) (item : CacheItem) (now : Int)
  | del (key : String)

/-- Apply one operation to a `MemoryCache`. -/
def MemoryCache.step (m : MemoryCache) : CacheOp → MemoryCache
  | .get key now => (m.get key now).2
  | .set key item now => m.set key item now
  | .del key => m.delete key

/-- Run a sequence of operations on a `MemoryCache`. -/
def MemoryCache.run (m : MemoryCache) : List CacheOp → MemoryCache
  | [] => m
  | op :: rest => (m.step op).run rest

/-- Well-formedness of the in-process store: the item map and the
access-timestamp map hold exactly the same keys (in the same dict
order), the keys are distinct (they are dict keys), and the number of
stored items never exceeds `max_items ≥ 1`. -/
def MemInv (m : MemoryCache) : Prop :=
  alKeys m.access_times = alKeys m.cache ∧
  (alKeys m.cache).Nodup ∧
  m.cache.length ≤ m.max_items ∧
  1 ≤ m.max_items

/-! ## Region health and active-region selection
(src/infra/modules/multi_region/health_checker.py) -/

/-- One persisted region health record as `determine_active_region`
consumes it: `region_name`, `status` (the string `"healthy"` or
`"unhealthy"`), and the caller-attached `priority`. -/
structure RegionRecord where
  region_name : String
  status : String
  priority : Int
deriving DecidableEq, Repr

/-- `determine_active_region(configs)`. `primary` is the module-level
`PRIMARY_REGION`. The no-healthy branch also logs
`"No healthy regions found!"` at error severity before returning the
primary; logging is outside the returned value. -/
def determine_active_region (primary : String) (configs : List RegionRecord) : String :=
  let healthy_regions := configs.filter (fun c => decide (c.status = "healthy"))
  if healthy_regions.isEmpty then
    primary
  else if (healthy_regions.find? (fun c => decide (c.region_name = primary))).isSome then
    primary
  else
    match healthy_regions.head? with
    | some c => c.region_name
    | none => primary

/-! ## Failover manager (src/tools/multi_region.py) -/

/-- `RegionStatus` from the source. -/
inductive RegionStatus where
  | active
  | standby
  | failed
  | maintenance
deriving DecidableEq, Repr

/-- `RegionConfig` (the fields `should_failover`/`perform_failover`
read; resource locators and mutable health bookkeeping are carried by
the health oracle below). -/
structure RegionConfig where
  region_name : String
  status : RegionStatus
  priority : Int
deriving DecidableEq, Repr

/-- `MultiRegionConfig`. -/
structure MultiRegionConfig where
  primary_region : String
  regions : List RegionConfig
  failover_enabled : Bool
  failover_threshold : Nat
deriving DecidableEq, Repr

/-- The mutable state of `MultiRegionManager`: the active region, the
consecutive-failure counter and the time of the last completed failover
(initialised to `current_region = primary_region`, `failure_count = 0`,
`last_failover_time = 0`). -/
structure MRState where
  current_region : String
  failure_count : Nat
  last_failover_time : Int
deriving DecidableEq, Repr

/-- `MultiRegionManager.should_failover`. `h` is the health oracle for
this invocation (the result of `check_region_health` per region) and
`now` the wall clock. Returns the decision and the updated state, since
the method mutates `failure_count`. The 300-second cooldown is the
hard-coded constant from the source. -/
def shouldFailover (cfg : MultiRegionConfig) (h : String → Bool) (now : Int)
    (st : MRState) : Bool × MRState :=
  if !cfg.failover_enabled then
    (false, st)
  else if h st.current_region then
    (false, { st with failure_count := 0 })
  else
    let st := { st with failure_count := st.failure_count + 1 }
    if st.failure_count ≥ cfg.failover_threshold ∧ now - st.last_failover_time > 300 then
      (true, st)
    else
      (false, st)

/-- `MultiRegionManager.perform_failover`: re-run the decision, then
switch to the first healthy ACTIVE region other than the current one in
priority order (`sorted(regions, key=lambda r: r.priority)` is a stable
sort), resetting the counter and recording the failover time. -/
def performFailover (cfg : MultiRegionConfig) (h : String → Bool) (now : Int)
    (st : MRState) : Option String × MRState :=
  let (go, st1) := shouldFailover cfg h now st
  if !go then
    (none, st1)
  else
    let sorted_regions := List.insertionSort (fun a b => a.priority ≤ b.priority) cfg.regions
    match sorted_regions.find? (fun r =>
        decide (r.region_name ≠ st1.current_region) &&
        decide (r.status = RegionStatus.active) &&
        h r.region_name) with
    | some r =>
      (some r.region_name,
        { current_region := r.region_name, failure_count := 0, last_failover_time := now })
    | none => (none, st1)

/-- One scheduled check-and-failover invocation is an observation: the
health oracle it sees and its wall-clock time. -/
structure MRObs where
  health : String → Bool
  now : Int

/-- Run a sequence of `perform_failover` invocations. -/
def runFailover (cfg : MultiRegionConfig) (st : MRState) : List MRObs → MRState
  | [] => st
  | o :: rest => runFailover cfg (performFailover cfg o.health o.now st).2 rest

/-! ## Circuit breaker lemmas -/

/-- In CLOSED state a successful call resets the failure counter and
keeps the breaker CLOSED. -/
lemma call_closed_success (cb : CircuitBreaker) (now : Int) (h : cb.state = .closed) :
    (cb.call .success now).1 = .ok ∧
    (cb.call .success now).2.failure_count = 0 ∧
    (cb.call .success now).2.state = .closed := by
  simp [CircuitBreaker.call, CircuitBreaker.exec, CircuitBreaker.onSuccess, h]

/-- In CLOSED state a classified failure increments the counter, records
the failure time, and opens exactly at the threshold. -/
lemma call_closed_failure (cb : CircuitBreaker) (now : Int) (h : cb.state = .closed) :
    (cb.call .expectedFail now).1 = .raisedExpected ∧
    (cb.call .expectedFail now).2.failure_count = cb.failure_count + 1 ∧
    (cb.call .expectedFail now).2.last_failure_time = some now ∧
    (cb.call .expectedFail now).2.state =
      (if cb.failure_count + 1 ≥ cb.config.failure_threshold then .opened else .closed) := by
  by_cases hth : cb.config.failure_threshold ≤ cb.failure_count + 1 <;>
    simp [CircuitBreaker.call, CircuitBreaker.exec, CircuitBreaker.onFailure, h, hth,
      ge_iff_le]

/-- An OPEN breaker whose failure counter is at or above the threshold
stays OPEN across any classified-failure call, with the counter still at
or above the threshold, and the config is unchanged. -/
lemma call_open_failure_stays (cb : CircuitBreaker) (now : Int)
    (h : cb.state = .opened) (hfc : cb.config.failure_threshold ≤ cb.failure_count) :
    (cb.call .expectedFail now).2.state = .opened ∧
    cb.config.failure_threshold ≤ (cb.call .expectedFail now).2.failure_count ∧
    (cb.call .expectedFail now).2.config = cb.config := by
  have hth : cb.config.failure_threshold ≤ cb.failure_count + 1 := by omega
  by_cases hr : cb.shouldAttemptReset now = true <;>
    simp [CircuitBreaker.call, CircuitBreaker.exec, CircuitBreaker.onFailure, h, hr, hth,
      ge_iff_le] <;>
    omega

/-- A run of classified failures keeps an at-threshold OPEN breaker
OPEN. -/
lemma runCalls_open_failures (times : List Int) :
    ∀ cb : CircuitBreaker, cb.state = .opened →
      cb.config.failure_threshold ≤ cb.failure_count →
      (runCalls cb (times.map (fun t => (CallOutcome.expectedFail, t)))).state = .opened := by
  induction times with
  | nil => intro cb h _; simpa [runCalls] using h
  | cons t rest ih =>
    intro cb h hfc
    have hstep := call_open_failure_stays cb t h hfc
    simpa [runCalls] using ih _ hstep.1 (hstep.2.2 ▸ hstep.2.1)

/-- Auxiliary: the config is preserved by a classified-failure call from
CLOSED. -/
lemma call_config_eq (cb : CircuitBreaker) (o : CallOutcome) (now : Int) :
    (cb.call o now).2.config = cb.config := by
  cases o <;>
    simp only [CircuitBreaker.call, CircuitBreaker.exec, CircuitBreaker.onSuccess,
      CircuitBreaker.onFailure] <;>
    split_ifs <;> simp

/-- Enough consecutive classified failures from CLOSED always open the
breaker. -/
lemma runCalls_closed_failures (times : List Int) :
    ∀ cb : CircuitBreaker, cb.state = .closed →
      cb.config.failure_threshold ≤ cb.failure_count + times.length →
      1 ≤ times.length →
      (runCalls cb (times.map (fun t => (CallOutcome.expectedFail, t)))).state = .opened := by
  induction times with
  | nil => intro cb _ _ hlen; simp at hlen
  | cons t rest ih =>
    intro cb h hsum _
    have hstep := call_closed_failure cb t h
    have hcfg := call_config_eq cb .expectedFail t
    by_cases hth : cb.config.failure_threshold ≤ cb.failure_count + 1
    · have hopen : (cb.call .expectedFail t).2.state = .opened := by
        rw [hstep.2.2.2]; simp [hth]
      have hge : (cb.call .expectedFail t).2.config.failure_threshold ≤
          (cb.call .expectedFail t).2.failure_count := by
        rw [hcfg, hstep.2.1]; omega
      simpa [runCalls] using runCalls_open_failures rest _ hopen hge
    · have hclosed : (cb.call .expectedFail t).2.state = .closed := by
        rw [hstep.2.2.2]; simp; omega
      have hlen : 1 ≤ rest.length := by
        simp only [List.length_cons] at hsum; omega
      have hsum' : (cb.call .expectedFail t).2.config.failure_threshold ≤
          (cb.call .expectedFail t).2.failure_count + rest.length := by
        rw [hcfg, hstep.2.1]; simp only [List.length_cons] at hsum; omega
      simpa [runCalls] using ih _ hclosed hsum' hlen

/-- If every run of consecutive classified failures stays below the
threshold (counting from the current failure count), a CLOSED breaker
stays CLOSED forever. -/
lemma runCalls_okRuns_closed (tr : List (CallOutcome × Int)) :
    ∀ cb : CircuitBreaker, cb.state = .closed →
      okRuns cb.config.failure_threshold cb.failure_count tr = true →
      (runCalls cb tr).state = .closed := by
  induction tr with
  | nil => intro cb h _; simpa [runCalls] using h
  | cons p rest ih =>
    intro cb h hok
    obtain ⟨o, t⟩ := p
    have hcfg := call_config_eq cb o t
    cases o with
    | success =>
      have hstep := call_closed_success cb t h
      simp only [okRuns] at hok
      have hok' : okRuns (cb.call .success t).2.config.failure_threshold
          (cb.call .success t).2.failure_count rest = true := by
        rw [hcfg, hstep.2.1]; exact hok
      simpa [runCalls] using ih _ hstep.2.2 hok'
    | expectedFail =>
      have hstep := call_closed_failure cb t h
      simp only [okRuns, Bool.and_eq_true, decide_eq_true_eq] at hok
      have hclosed : (cb.call .expectedFail t).2.state = .closed := by
        rw [hstep.2.2.2]; simp; omega
      have hok' : okRuns (cb.call .expectedFail t).2.config.failure_threshold
          (cb.call .expectedFail t).2.failure_count rest = true := by
        rw [hcfg, hstep.2.1]; exact hok.2
      simpa [runCalls] using ih _ hclosed hok'
    | unexpectedFail =>
      have hsame : (cb.call .unexpectedFail t).2 = cb := by
        simp [CircuitBreaker.call, CircuitBreaker.exec, h]
      simp only [okRuns] at hok
      have := ih cb h hok
      simpa [runCalls, hsame] using this

/-- C1: for every circuit breaker in state CLOSED, a successful call
resets `failure_count` to 0 (and stays CLOSED); a classified failure
increments `failure_count`, records `last_failure_time`, and moves the
state to OPEN exactly when the incremented count reaches
`failure_threshold`; consequently, any `failure_threshold` (or more)
consecutive classified failures from CLOSED leave the breaker OPEN,
while a trace whose runs of consecutive classified failures all stay
below the threshold leaves the breaker CLOSED. -/
theorem closed_breaker_threshold_behaviour (cb : CircuitBreaker)
    (hclosed : cb.state = .closed) (hpos : 1 ≤ cb.config.failure_threshold) :
    (∀ now : Int,
      (cb.call .success now).1 = .ok ∧
      (cb.call .success now).2.failure_count = 0 ∧
      (cb.call .success now).2.state = .closed) ∧
    (∀ now : Int,
      (cb.call .expectedFail now).2.failure_count = cb.failure_count + 1 ∧
      (cb.call .expectedFail now).2.last_failure_time = some now ∧
      (cb.call .expectedFail now).2.state =
        (if cb.failure_count + 1 ≥ cb.config.failure_threshold then .opened else .closed)) ∧
    (∀ times : List Int, cb.config.failure_threshold ≤ times.length →
      (runCalls cb (times.map (fun t => (CallOutcome.expectedFail, t)))).state = .opened) ∧
    (∀ tr : List (CallOutcome × Int),
      okRuns cb.config.failure_threshold cb.failure_count tr = true →
      (runCalls cb tr).state = .closed) := by
  refine ⟨fun now => call_closed_success cb now hclosed,
    fun now => (call_closed_failure cb now hclosed).2,
    fun times hlen => runCalls_closed_failures times cb hclosed (by omega) (by omega),
    fun tr hok => runCalls_okRuns_closed tr cb hclosed hok⟩

/-- Witness for C1 at a concrete breaker: threshold 3, three failing
calls open the breaker; a failure-failure-success-failure-failure trace
never opens it. -/
theorem closed_breaker_threshold_behaviour_witness :
    let cfg : CircuitBreakerConfig :=
      { failure_threshold := 3, recovery_timeout := 60, success_threshold := 2, timeout := 30 }
    let cb : CircuitBreaker :=
      { config := cfg, state := .closed, failure_count := 0, success_count := 0,
        last_failure_time := none, last_success_time := none }
    (runCalls cb [(.expectedFail, 1), (.expectedFail, 2), (.expectedFail, 3)]).state =
        .opened ∧
    (runCalls cb [(.expectedFail, 1), (.expectedFail, 2), (.success, 3),
        (.expectedFail, 4), (.expectedFail, 5)]).state = .closed := by
  intro cfg cb
  constructor
  · exact (closed_breaker_threshold_behaviour cb rfl (by decide)).2.2.1 [1, 2, 3] (by decide)
  · exact (closed_breaker_threshold_behaviour cb rfl (by decide)).2.2.2
      [(.expectedFail, 1), (.expectedFail, 2), (.success, 3), (.expectedFail, 4),
        (.expectedFail, 5)] (by decide)

/-- C2: for every breaker in state OPEN whose last failure is recorded
at time `t`, a call at time `now` is rejected with the breaker-open
exception, leaving the breaker untouched and the operation unexecuted,
exactly when `now - t < recovery_timeout`; otherwise the breaker first
transitions to HALF_OPEN and the operation runs as a probe. -/
theorem open_breaker_recovery_gate (cb : CircuitBreaker) (t now : Int) (o : CallOutcome)
    (hopen : cb.state = .opened) (hlast : cb.last_failure_time = some t) :
    ((cb.call o now).1 = .rejectedOpen ↔ now - t < cb.config.recovery_timeout) ∧
    (now - t < cb.config.recovery_timeout → cb.call o now = (.rejectedOpen, cb)) ∧
    (cb.config.recovery_timeout ≤ now - t →
      cb.call o now = CircuitBreaker.exec { cb with state := .halfOpen } o now) := by
  by_cases hr : cb.config.recovery_timeout ≤ now - t
  · have hsr : cb.shouldAttemptReset now = true := by
      simp [CircuitBreaker.shouldAttemptReset, hlast, hr]
    refine ⟨?_, fun hlt => absurd hr (by omega), fun _ => ?_⟩
    · simp only [CircuitBreaker.call, hopen, if_pos rfl, hsr, if_true]
      cases o <;> simp [CircuitBreaker.exec] <;> omega
    · simp [CircuitBreaker.call, hopen, hsr]
  · have hsr : cb.shouldAttemptReset now = false := by
      simp [CircuitBreaker.shouldAttemptReset, hlast]; omega
    refine ⟨?_, fun _ => ?_, fun hge => absurd hge hr⟩ <;>
      simp [CircuitBreaker.call, hopen, hsr] <;> omega

/-- Witness for C2: recovery_timeout 60, last failure at 0; a call at 10
is rejected with the breaker untouched, a call at 60 probes and
succeeds. -/
theorem open_breaker_recovery_gate_witness :
    let cfg : CircuitBreakerConfig :=
      { failure_threshold := 3, recovery_timeout := 60, success_threshold := 2, timeout := 30 }
    let cb : CircuitBreaker :=
      { config := cfg, state := .opened, failure_count := 3, success_count := 0,
        last_failure_time := some 0, last_success_time := none }
    cb.call .success 10 = (.rejectedOpen, cb) ∧
    cb.call .success 60 = CircuitBreaker.exec { cb with state := .halfOpen } .success 60 := by
  intro cfg cb
  exact ⟨(open_breaker_recovery_gate cb 0 10 .success rfl rfl).2.1 (by decide),
    (open_breaker_recovery_gate cb 0 60 .success rfl rfl).2.2 (by decide)⟩

/-- C3 counterexample: a HALF_OPEN breaker with `failure_count = 0`,
`success_count = 2` and `failure_threshold = 5`. A classified failure
leaves the state HALF_OPEN (not OPEN) and leaves `success_count` at 2
(not reset to 0), refuting the claim that any single classified failure
while HALF_OPEN immediately returns the state to OPEN and resets
`success_count`. -/
theorem halfopen_failure_not_immediate_open :
    let cfg : CircuitBreakerConfig :=
      { failure_threshold := 5, recovery_timeout := 60, success_threshold := 3, timeout := 30 }
    let cb : CircuitBreaker :=
      { config := cfg, state := .halfOpen, failure_count := 0, success_count := 2,
        last_failure_time := some 0, last_success_time := some 5 }
    ¬ ((cb.call .expectedFail 10).2.state = .opened) ∧
    ¬ ((cb.call .expectedFail 10).2.success_count = 0) := by
  decide

/-- C3 amended: in HALF_OPEN, a successful call increments
`success_count` and, once it reaches `success_threshold`, closes the
breaker with both counters reset; a classified failure increments
`failure_count`, records `last_failure_time`, leaves `success_count`
unchanged (it is not reset), and moves the state to OPEN exactly when
the incremented `failure_count` reaches `failure_threshold` — in
particular any HALF_OPEN breaker already at or above the failure
threshold (as every breaker that reached HALF_OPEN through OPEN is)
returns to OPEN on a single classified failure. -/
theorem halfopen_breaker_behaviour (cb : CircuitBreaker) (now : Int)
    (hhalf : cb.state = .halfOpen) :
    ((cb.call .success now).2.success_count =
      (if cb.config.success_threshold ≤ cb.success_count + 1 then 0
       else cb.success_count + 1)) ∧
    ((cb.call .success now).2.state =
      (if cb.config.success_threshold ≤ cb.success_count + 1 then .closed
       else .halfOpen)) ∧
    ((cb.call .success now).2.failure_count =
      (if cb.config.success_threshold ≤ cb.success_count + 1 then 0
       else cb.failure_count)) ∧
    ((cb.call .expectedFail now).2.failure_count = cb.failure_count + 1) ∧
    ((cb.call .expectedFail now).2.last_failure_time = some now) ∧
    ((cb.call .expectedFail now).2.success_count = cb.success_count) ∧
    ((cb.call .expectedFail now).2.state =
      (if cb.config.failure_threshold ≤ cb.failure_count + 1 then .opened
       else .halfOpen)) := by
  by_cases hs : cb.config.success_threshold ≤ cb.success_count + 1 <;>
    by_cases hf : cb.config.failure_threshold ≤ cb.failure_count + 1 <;>
    simp [CircuitBreaker.call, CircuitBreaker.exec, CircuitBreaker.onSuccess,
      CircuitBreaker.onFailure, hhalf, hs, hf, ge_iff_le]

/-- Witness for the amended C3 at a concrete HALF_OPEN breaker with
`failure_count = 3 ≥ failure_threshold = 3` and `success_count = 1`,
`success_threshold = 2`: a success closes the breaker with both counters
reset, while a classified failure reopens it with `success_count` kept. -/
theorem halfopen_breaker_behaviour_witness :
    let cfg : CircuitBreakerConfig :=
      { failure_threshold := 3, recovery_timeout := 60, success_threshold := 2, timeout := 30 }
    let cb : CircuitBreaker :=
      { config := cfg, state := .halfOpen, failure_count := 3, success_count := 1,
        last_failure_time := some 0, last_success_time := none }
    (cb.call .success 70).2.state = .closed ∧
    (cb.call .success 70).2.failure_count = 0 ∧
    (cb.call .success 70).2.success_count = 0 ∧
    (cb.call .expectedFail 70).2.state = .opened ∧
    (cb.call .expectedFail 70).2.success_count = 1 := by
  intro cfg cb
  have h := halfopen_breaker_behaviour cb 70 rfl
  refine ⟨?_, ?_, ?_, ?_, ?_⟩
  · rw [h.2.1]; decide
  · rw [h.2.2.1]; decide
  · rw [h.1]; decide
  · rw [h.2.2.2.2.2.2]; decide
  · rw [h.2.2.2.2.2.1]

/-- C4: the source stores `config.timeout` ("Request timeout in
seconds") but `CircuitBreaker.call` never reads it: no bound is applied
to the wrapped operation and elapsed time never produces a classified
failure. Concretely, with the GitHub breaker config (`timeout = 15`), an
operation invoked at time 0 that returns successfully at time 100 — far
beyond the configured 15 seconds — is recorded as a success: the call
returns `ok` and `failure_count` resets to 0 instead of being
incremented toward the threshold. -/
theorem call_ignores_configured_timeout :
    let cfg : CircuitBreakerConfig :=
      { failure_threshold := 3, recovery_timeout := 30, success_threshold := 2, timeout := 15 }
    let cb : CircuitBreaker :=
      { config := cfg, state := .closed, failure_count := 2, success_count := 0,
        last_failure_time := some 0, last_success_time := none }
    (cb.call .success 100).1 = .ok ∧
    (cb.call .success 100).2.failure_count = 0 ∧
    (cb.call .success 100).2.state = .closed := by
  decide

/-! ## Association-list lemmas -/

lemma alGet_alSet_self {α : Type} (l : List (String × α)) (k : String) (v : α) :
    alGet (alSet l k v) k = some v := by
  induction l with
  | nil => simp [alSet, alGet]
  | cons p rest ih =>
    obtain ⟨k', w⟩ := p
    by_cases h : k' = k <;> simp [alSet, alGet, h, ih]

lemma alGet_alSet_ne {α : Type} (l : List (String × α)) (k k' : String) (v : α)
    (h : k' ≠ k) : alGet (alSet l k v) k' = alGet l k' := by
  have hne : ¬ k = k' := fun he => h he.symm
  induction l with
  | nil => simp [alSet, alGet, hne]
  | cons p rest ih =>
    obtain ⟨k₀, w⟩ := p
    by_cases h0 : k₀ = k
    · subst h0
      simp [alSet, alGet, hne]
    · by_cases h1 : k₀ = k' <;> simp [alSet, alGet, h0, h1, h, ih]

lemma alGet_alDel_ne {α : Type} (l : List (String × α)) (k k' : String)
    (h : k' ≠ k) : alGet (alDel l k) k' = alGet l k' := by
  have hne : ¬ k = k' := fun he => h he.symm
  induction l with
  | nil => simp [alDel]
  | cons p rest ih =>
    obtain ⟨k₀, w⟩ := p
    by_cases h0 : k₀ = k
    · subst h0
      simp [alDel, alGet, hne]
    · by_cases h1 : k₀ = k' <;> simp [alDel, alGet, h0, h1, h, ih]

lemma alGet_eq_none_of_not_mem {α : Type} (l : List (String × α)) (k : String)
    (h : k ∉ alKeys l) : alGet l k = none := by
  induction l with
  | nil => simp [alGet]
  | cons p rest ih =>
    obtain ⟨k₀, w⟩ := p
    simp only [alKeys, List.map_cons, List.mem_cons, not_or] at h
    have hne : ¬ k₀ = k := fun he => h.1 he.symm
    simp only [alGet, if_neg hne]
    exact ih h.2

lemma alGet_alDel_self {α : Type} (l : List (String × α)) (k : String)
    (hnodup : (alKeys l).Nodup) : alGet (alDel l k) k = none := by
  induction l with
  | nil => simp [alDel, alGet]
  | cons p rest ih =>
    obtain ⟨k₀, w⟩ := p
    simp only [alKeys, List.map_cons, List.nodup_cons] at hnodup
    by_cases h0 : k₀ = k
    · subst h0
      simp only [alDel, if_pos rfl]
      exact alGet_eq_none_of_not_mem rest k₀ hnodup.1
    · simp [alDel, alGet, h0]
      exact ih hnodup.2

lemma memSet_get_self (m : MemoryCache) (key : String) (item : CacheItem) (now : Int) :
    alGet (m.set key item now).cache key = some item := by
  simp only [MemoryCache.set]
  split <;> exact alGet_alSet_self _ _ _

/-- If every backend in the chain holds an expired item under `key`, the
probe loop reports a miss. -/
lemma advGetGo_all_expired (key : String) (now : Int) (item : CacheItem)
    (hexp : item.isExpired now = true) :
    ∀ stores : List MemoryCache,
      (∀ st ∈ stores, alGet st.cache key = some item) →
      (advGetGo key now stores).1 = none := by
  intro stores
  induction stores with
  | nil => intro _; simp [advGetGo]
  | cons st rest ih =>
    intro hall
    have hst : alGet st.cache key = some item := hall st (by simp)
    simp only [advGetGo, MemoryCache.get, hst, hexp, Bool.not_true, Bool.false_eq_true,
      if_false]
    have := ih (fun s hs => hall s (by simp [hs]))
    cases hrec : advGetGo key now rest with
    | mk v rest' => simpa [hrec] using this

/-- C5: cache round-trip with TTL. After `set(ns, v, ttl=t)` at time
`nowSet` (with `t > 0` and at least one backend in the chain), `get(ns)`
with the same arguments returns `v` at any time `nowGet ≤ expires_at =
nowSet + t`, and returns a miss (`none`) at any time
`nowGet > expires_at`; an item is expired exactly when
`now > expires_at`. -/
theorem cache_roundtrip_ttl (md5hex : String → String) (cfg : CacheConfig)
    (stores : List MemoryCache) (ns : String) (args : List PyVal)
    (kwargs : List (String × PyVal)) (v : PyVal) (t nowSet nowGet : Int)
    (hpos : 0 < t) (hne : stores ≠ []) :
    (∀ (it : CacheItem) (now : Int), it.isExpired now = true ↔ now > it.expires_at) ∧
    (nowGet ≤ nowSet + t →
      (advGet md5hex cfg
        (advSet md5hex cfg stores ns v (some t) args kwargs nowSet).1
        ns args kwargs nowGet).1 = some v) ∧
    (nowGet > nowSet + t →
      (advGet md5hex cfg
        (advSet md5hex cfg stores ns v (some t) args kwargs nowSet).1
        ns args kwargs nowGet).1 = none) := by
  refine ⟨fun it now => by simp [CacheItem.isExpired], ?_, ?_⟩ <;>
  · intro hcmp
    obtain ⟨st₀, rest, rfl⟩ := List.exists_cons_of_ne_nil hne
    have ht0 : ¬ t = 0 := by omega
    simp only [advSet, advGet, ht0, if_neg ht0, List.map_cons]
    simp only [advGetGo, MemoryCache.get, memSet_get_self]
    first
      | -- hit: the first backend returns the stored value
        (have hnotexp : CacheItem.isExpired
            { key := generateKey md5hex cfg.prefixKey ns args kwargs, value := v,
              created_at := nowSet, expires_at := nowSet + t, hits := 0 } nowGet = false := by
          simp [CacheItem.isExpired]; omega
         have hnotexp' : CacheItem.isExpired
            { key := generateKey md5hex cfg.prefixKey ns args kwargs, value := v,
              created_at := nowSet, expires_at := nowSet + t, hits := 1 } nowGet = false := by
          simp [CacheItem.isExpired]; omega
         simp [hnotexp, hnotexp'])
      | -- miss: every backend holds the now-expired item
        (have hexp : CacheItem.isExpired
            { key := generateKey md5hex cfg.prefixKey ns args kwargs, value := v,
              created_at := nowSet, expires_at := nowSet + t, hits := 0 } nowGet = true := by
          simp [CacheItem.isExpired]; omega
         have hall := advGetGo_all_expired
            (generateKey md5hex cfg.prefixKey ns args kwargs) nowGet _ hexp
            (rest.map (fun st => st.set (generateKey md5hex cfg.prefixKey ns args kwargs)
              { key := generateKey md5hex cfg.prefixKey ns args kwargs, value := v,
                created_at := nowSet, expires_at := nowSet + t, hits := 0 } nowSet))
            (by
              intro s hs
              simp only [List.mem_map] at hs
              obtain ⟨s₀, _, rfl⟩ := hs
              exact memSet_get_self _ _ _ _)
         simp only [hexp, Bool.not_true, Bool.false_eq_true, if_false]
         cases hrec : advGetGo (generateKey md5hex cfg.prefixKey ns args kwargs) nowGet
             (rest.map (fun st => st.set (generateKey md5hex cfg.prefixKey ns args kwargs)
               { key := generateKey md5hex cfg.prefixKey ns args kwargs, value := v,
                 created_at := nowSet, expires_at := nowSet + t, hits := 0 } nowSet)) with
         | mk mv rest' => simpa [hrec] using hall)

/-- Witness for C5: storing 42 under namespace "ns" with ttl 1 at time 0
in a fresh single-backend chain; reading at time 0 hits, reading at
time 2 misses. -/
theorem cache_roundtrip_ttl_witness :
    (0 : Int) < 1 ∧
    (advGet (fun s => s) ⟨3600, 2, "archon"⟩
      (advSet (fun s => s) ⟨3600, 2, "archon"⟩ [MemoryCache.empty 2] "ns" (.pint 42)
        (some 1) [] [] 0).1 "ns" [] [] 0).1 = some (.pint 42) ∧
    (advGet (fun s => s) ⟨3600, 2, "archon"⟩
      (advSet (fun s => s) ⟨3600, 2, "archon"⟩ [MemoryCache.empty 2] "ns" (.pint 42)
        (some 1) [] [] 0).1 "ns" [] [] 2).1 = none := by
  refine ⟨by decide, ?_, ?_⟩
  · exact (cache_roundtrip_ttl (fun s => s) ⟨3600, 2, "archon"⟩ [MemoryCache.empty 2]
      "ns" [] [] (.pint 42) 1 0 0 (by decide) (by simp)).2.1 (by decide)
  · exact (cache_roundtrip_ttl (fun s => s) ⟨3600, 2, "archon"⟩ [MemoryCache.empty 2]
      "ns" [] [] (.pint 42) 1 0 2 (by decide) (by simp)).2.2 (by decide)

/-- Sorting keyword arguments by key is invariant under permutation when
the keys are distinct (as the keys of a Python dict are). -/
lemma sortKwargs_perm_eq (kwargs kwargs' : List (String × PyVal))
    (hperm : kwargs.Perm kwargs') (hnodup : (kwargs.map Prod.fst).Nodup) :
    sortKwargs kwargs = sortKwargs kwargs' := by
  haveI htot : IsTotal (String × PyVal) (fun a b => a.1 ≤ b.1) :=
    ⟨fun a b => le_total a.1 b.1⟩
  haveI htrans : IsTrans (String × PyVal) (fun a b => a.1 ≤ b.1) :=
    ⟨fun a b c hab hbc => le_trans hab hbc⟩
  haveI hanti : IsAntisymm (String × PyVal) (fun a b => a.1 < b.1) :=
    ⟨fun a b h1 h2 => absurd (lt_trans h1 h2) (lt_irrefl _)⟩
  have hp : (sortKwargs kwargs).Perm (sortKwargs kwargs') :=
    (List.perm_insertionSort _ kwargs).trans
      (hperm.trans (List.perm_insertionSort _ kwargs').symm)
  have hnodup₁ : ((sortKwargs kwargs).map Prod.fst).Nodup :=
    (((List.perm_insertionSort _ kwargs).map Prod.fst).nodup_iff).mpr hnodup
  have hnodup₂ : ((sortKwargs kwargs').map Prod.fst).Nodup :=
    ((hp.symm.map Prod.fst).nodup_iff).mpr hnodup₁
  have hs₁ : (sortKwargs kwargs).Sorted (fun a b => a.1 ≤ b.1) :=
    List.sorted_insertionSort _ kwargs
  have hs₂ : (sortKwargs kwargs').Sorted (fun a b => a.1 ≤ b.1) :=
    List.sorted_insertionSort _ kwargs'
  have hlt₁ : (sortKwargs kwargs).Sorted (fun a b => a.1 < b.1) :=
    (hs₁.and (List.pairwise_map.mp hnodup₁)).imp
      (fun h => lt_of_le_of_ne h.1 h.2)
  have hlt₂ : (sortKwargs kwargs').Sorted (fun a b => a.1 < b.1) :=
    (hs₂.and (List.pairwise_map.mp hnodup₂)).imp
      (fun h => lt_of_le_of_ne h.1 h.2)
  exact List.eq_of_perm_of_sorted hp hlt₁ hlt₂

/-- C6: cache-key determinism. The derived key is a pure function of the
key prefix, the namespace, the positional arguments and the set of
keyword-argument pairs: permuting the keyword arguments (whose keys, as
Python dict keys, are distinct) never changes the derived key. -/
theorem cache_key_deterministic (md5hex : String → String) ( prefixKey ns : String)
    (args : List PyVal) (kwargs kwargs' : List (String × PyVal))
    (hperm : kwargs.Perm kwargs') (hnodup : (kwargs.map Prod.fst).Nodup) :
    generateKey md5hex prefixKey ns args kwargs =
      generateKey md5hex prefixKey ns args kwargs' := by
  unfold generateKey keyString
  rw [sortKwargs_perm_eq kwargs kwargs' hperm hnodup]

/-- Witness for C6: two keyword-argument lists that differ only in
order derive the same key. -/
theorem cache_key_deterministic_witness :
    generateKey (fun s => s) "archon" "ns" [PyVal.pint 7]
      [("b", PyVal.pint 2), ("a", PyVal.pint 1)] =
    generateKey (fun s => s) "archon" "ns" [PyVal.pint 7]
      [("a", PyVal.pint 1), ("b", PyVal.pint 2)] := by
  exact cache_key_deterministic (fun s => s) "archon" "ns" [PyVal.pint 7]
    [("b", PyVal.pint 2), ("a", PyVal.pint 1)] [("a", PyVal.pint 1), ("b", PyVal.pint 2)]
    (List.Perm.swap ("a", PyVal.pint 1) ("b", PyVal.pint 2) [])
    (by simp)

lemma alGet_eq_none_iff {α : Type} (l : List (String × α)) (k : String) :
    alGet l k = none ↔ k ∉ alKeys l := by
  induction l with
  | nil => simp [alGet, alKeys]
  | cons p rest ih =>
    obtain ⟨k₀, w⟩ := p
    by_cases h0 : k₀ = k
    · subst h0
      simp [alGet, alKeys]
    · simp only [alGet, if_neg h0, alKeys, List.map_cons, List.mem_cons]
      simp only [alKeys] at ih
      rw [ih]
      constructor
      · intro h
        rintro (he | hm)
        · exact h0 he.symm
        · exact h hm
      · intro h hm
        exact h (Or.inr hm)

lemma alKeys_alSet {α : Type} (l : List (String × α)) (k : String) (v : α) :
    alKeys (alSet l k v) =
      if k ∈ alKeys l then alKeys l else alKeys l ++ [k] := by
  induction l with
  | nil => simp [alSet, alKeys]
  | cons p rest ih =>
    obtain ⟨k₀, w⟩ := p
    by_cases h0 : k₀ = k
    · subst h0
      simp [alSet, alKeys]
    · have h0' : ¬ k = k₀ := fun he => h0 he.symm
      simp only [alSet, if_neg h0, alKeys, List.map_cons, List.mem_cons] at ih ⊢
      rw [ih]
      by_cases hm : k ∈ List.map Prod.fst rest <;> simp [hm, h0']

lemma length_alSet {α : Type} (l : List (String × α)) (k : String) (v : α) :
    (alSet l k v).length = if k ∈ alKeys l then l.length else l.length + 1 := by
  induction l with
  | nil => simp [alSet, alKeys]
  | cons p rest ih =>
    obtain ⟨k₀, w⟩ := p
    by_cases h0 : k₀ = k
    · subst h0
      simp [alSet, alKeys]
    · have h0' : ¬ k = k₀ := fun he => h0 he.symm
      simp only [alSet, if_neg h0, alKeys, List.map_cons, List.mem_cons,
        List.length_cons]
      simp only [alKeys] at ih
      rw [ih]
      by_cases hm : k ∈ List.map Prod.fst rest <;> simp [hm, h0']

lemma alKeys_alDel {α : Type} (l : List (String × α)) (k : String) :
    alKeys (alDel l k) = (alKeys l).erase k := by
  induction l with
  | nil => simp [alDel, alKeys]
  | cons p rest ih =>
    obtain ⟨k₀, w⟩ := p
    simp only [alKeys] at ih ⊢
    by_cases h0 : k₀ = k <;>
      simp [alDel, List.erase_cons, h0, ih]

lemma alArgminGo_spec (rest : List (String × Int)) :
    ∀ (bk : String) (bv : Int),
      ∃ v : Int, ((alArgminGo bk bv rest, v) = (bk, bv) ∨ (alArgminGo bk bv rest, v) ∈ rest) ∧
        v ≤ bv ∧ ∀ p ∈ rest, v ≤ p.2 := by
  induction rest with
  | nil => intro bk bv; exact ⟨bv, Or.inl rfl, le_refl _, by simp⟩
  | cons q r ih =>
    intro bk bv
    obtain ⟨k₁, v₁⟩ := q
    by_cases hlt : v₁ < bv
    · obtain ⟨v, hmem, hle, hall⟩ := ih k₁ v₁
      refine ⟨v, ?_, by omega, ?_⟩
      · simp only [alArgminGo, if_pos hlt]
        rcases hmem with h | h
        · exact Or.inr (by simp [h])
        · exact Or.inr (List.mem_cons_of_mem _ h)
      · intro p hp
        rcases List.mem_cons.mp hp with h | h
        · subst h; omega
        · exact hall p h
    · obtain ⟨v, hmem, hle, hall⟩ := ih bk bv
      refine ⟨v, ?_, hle, ?_⟩
      · simp only [alArgminGo, if_neg hlt]
        rcases hmem with h | h
        · exact Or.inl h
        · exact Or.inr (List.mem_cons_of_mem _ h)
      · intro p hp
        rcases List.mem_cons.mp hp with h | h
        · subst h; simp only [Prod.snd]; omega
        · exact hall p h

lemma alArgmin_spec (l : List (String × Int)) (o : String)
    (h : alArgmin l = some o) :
    ∃ v : Int, (o, v) ∈ l ∧ ∀ p ∈ l, v ≤ p.2 := by
  match l, h with
  | (k₀, v₀) :: rest, h =>
    simp only [alArgmin, Option.some.injEq] at h
    obtain ⟨v, hmem, hle, hall⟩ := alArgminGo_spec rest k₀ v₀
    refine ⟨v, ?_, ?_⟩
    · rcases hmem with hm | hm
      · rw [← h]
        rw [Prod.mk.injEq] at hm
        simp [hm.1, hm.2]
      · exact List.mem_cons_of_mem _ (h ▸ hm)
    · intro p hp
      rcases List.mem_cons.mp hp with hh | hh
      · subst hh; exact hle
      · exact hall p hh

/-- C7: in-process LRU eviction. For a full in-process cache (as many
items as `max_items ≥ 1`, well-formed: both maps share their distinct
keys, access timestamps distinct), a `set` with a fresh key evicts
exactly the entry whose last-access timestamp is strictly the oldest —
by access time, not insertion time — stores the new entry, and keeps
every other entry; and every non-expired read returns the entry with its
hit counter incremented and its access timestamp updated to the read
time. -/
theorem memory_lru_eviction (m : MemoryCache) (key : String) (item : CacheItem)
    (now : Int)
    (hfull : m.cache.length = m.max_items)
    (hpos : 1 ≤ m.max_items)
    (hnew : alGet m.cache key = none)
    (hkeys : alKeys m.access_times = alKeys m.cache)
    (hnodupK : (alKeys m.cache).Nodup)
    (hnodupT : (m.access_times.map Prod.snd).Nodup) :
    (∃ o tOld,
      alArgmin m.access_times = some o ∧
      (o, tOld) ∈ m.access_times ∧
      (∀ p ∈ m.access_times, p.1 ≠ o → tOld < p.2) ∧
      o ≠ key ∧
      alGet (m.set key item now).cache o = none ∧
      alGet (m.set key item now).cache key = some item ∧
      (∀ k', k' ≠ o → k' ≠ key →
        alGet (m.set key item now).cache k' = alGet m.cache k')) ∧
    (∀ (k : String) (it : CacheItem) (nowR : Int),
      alGet m.cache k = some it → it.isExpired nowR = false →
      (m.get k nowR).1 = some { it with hits := it.hits + 1 } ∧
      alGet (m.get k nowR).2.access_times k = some nowR ∧
      alGet (m.get k nowR).2.cache k = some { it with hits := it.hits + 1 }) := by
  constructor
  · have hlen : m.access_times.length = m.cache.length := by
      have h := congrArg List.length hkeys
      simpa [alKeys] using h
    have hane : m.access_times ≠ [] := by
      intro h
      rw [h] at hlen
      simp at hlen
      omega
    obtain ⟨o, ho⟩ : ∃ o, alArgmin m.access_times = some o := by
      cases hc : m.access_times with
      | nil => exact absurd hc hane
      | cons q r =>
        refine ⟨alArgminGo q.1 q.2 r, ?_⟩
        cases q
        rfl
    obtain ⟨tOld, hmem, hall⟩ := alArgmin_spec _ o ho
    have homem : o ∈ alKeys m.cache := by
      rw [← hkeys]
      exact List.mem_map.mpr ⟨(o, tOld), hmem, rfl⟩
    have hkeynot : key ∉ alKeys m.cache := (alGet_eq_none_iff _ _).mp hnew
    have honek : o ≠ key := fun he => hkeynot (he ▸ homem)
    have hcond : m.cache.length ≥ m.max_items ∧ (alGet m.cache key).isNone := by
      constructor
      · omega
      · simp [hnew]
    have hset : (m.set key item now).cache = alSet (alDel m.cache o) key item := by
      simp only [MemoryCache.set, if_pos hcond, MemoryCache.evictOldest, ho]
    refine ⟨o, tOld, ho, hmem, ?_, honek, ?_, ?_, ?_⟩
    · intro p hp hpo
      have hle := hall p hp
      rcases eq_or_lt_of_le hle with heq | hlt
      · have hpe : (o, tOld) = p :=
          List.inj_on_of_nodup_map hnodupT hmem hp heq
        exact absurd (congrArg Prod.fst hpe).symm hpo
      · exact hlt
    · rw [hset, alGet_alSet_ne _ _ _ _ honek]
      exact alGet_alDel_self _ _ hnodupK
    · rw [hset]
      exact alGet_alSet_self _ _ _
    · intro k' hko hkk
      rw [hset, alGet_alSet_ne _ _ _ _ hkk, alGet_alDel_ne _ _ _ hko]
  · intro k it nowR hget hnotexp
    simp only [MemoryCache.get, hget, hnotexp, Bool.not_false, if_true]
    exact ⟨trivial, alGet_alSet_self _ _ _, alGet_alSet_self _ _ _⟩

/-- Witness for C7: a cache with `max_items = 2` holding keys "a"
(accessed at 10) and "b" (accessed at 20); inserting "c" at time 30
evicts "a", the least-recently-accessed, and a read of "b" at 30 bumps
its counter and timestamp. -/
theorem memory_lru_eviction_witness :
    let iA : CacheItem := ⟨"a", PyVal.pnone, 0, 100, 0⟩
    let iB : CacheItem := ⟨"b", PyVal.pnone, 0, 100, 0⟩
    let iC : CacheItem := ⟨"c", PyVal.pnone, 0, 100, 0⟩
    let m : MemoryCache := ⟨2, [("a", iA), ("b", iB)], [("a", 10), ("b", 20)]⟩
    (∃ o tOld,
      alArgmin m.access_times = some o ∧
      (o, tOld) ∈ m.access_times ∧
      (∀ p ∈ m.access_times, p.1 ≠ o → tOld < p.2) ∧
      o ≠ "c" ∧
      alGet (m.set "c" iC 30).cache o = none ∧
      alGet (m.set "c" iC 30).cache "c" = some iC ∧
      (∀ k', k' ≠ o → k' ≠ "c" →
        alGet (m.set "c" iC 30).cache k' = alGet m.cache k')) ∧
    (∀ (k : String) (it : CacheItem) (nowR : Int),
      alGet m.cache k = some it → it.isExpired nowR = false →
      (m.get k nowR).1 = some { it with hits := it.hits + 1 } ∧
      alGet (m.get k nowR).2.access_times k = some nowR ∧
      alGet (m.get k nowR).2.cache k = some { it with hits := it.hits + 1 }) := by
  intro iA iB iC m
  exact memory_lru_eviction m "c" iC 30 rfl (by decide) rfl rfl (by decide) (by decide)

lemma mem_alKeys_of_alGet_some {α : Type} {l : List (String × α)} {k : String}
    {v : α} (h : alGet l k = some v) : k ∈ alKeys l := by
  by_contra hm
  rw [(alGet_eq_none_iff l k).mpr hm] at h
  cases h

lemma nodup_append_singleton {l : List String} {k : String} (h : l.Nodup)
    (hk : k ∉ l) : (l ++ [k]).Nodup := by
  rw [List.nodup_append]
  refine ⟨h, List.nodup_singleton k, fun a ha hb => ?_⟩
  rw [List.mem_singleton] at hb
  exact hk (hb ▸ ha)

lemma memInv_set (m : MemoryCache) (key : String) (item : CacheItem) (now : Int)
    (h : MemInv m) : MemInv (m.set key item now) := by
  obtain ⟨hk, hnd, hlen, hpos⟩ := h
  by_cases hcond : m.cache.length ≥ m.max_items ∧ (alGet m.cache key).isNone
  · have hkeynot : key ∉ alKeys m.cache :=
      (alGet_eq_none_iff _ _).mp (Option.isNone_iff_eq_none.mp hcond.2)
    have hlenc : m.cache.length = m.max_items := le_antisymm hlen hcond.1
    have hlena : m.access_times.length = m.cache.length := by
      have hh := congrArg List.length hk
      simpa [alKeys] using hh
    have hane : m.access_times ≠ [] := by
      intro hx
      rw [hx] at hlena
      simp at hlena
      omega
    obtain ⟨o, ho⟩ : ∃ o, alArgmin m.access_times = some o := by
      cases hc : m.access_times with
      | nil => exact absurd hc hane
      | cons q r =>
        refine ⟨alArgminGo q.1 q.2 r, ?_⟩
        cases q
        rfl
    obtain ⟨tOld, hmem, _⟩ := alArgmin_spec _ o ho
    have homem : o ∈ alKeys m.cache := by
      rw [← hk]
      exact List.mem_map.mpr ⟨(o, tOld), hmem, rfl⟩
    have hkeynot' : key ∉ (alKeys m.cache).erase o := by
      intro hx
      exact hkeynot ((List.erase_sublist _ _).subset hx)
    have hcache : (m.set key item now).cache = alSet (alDel m.cache o) key item := by
      simp only [MemoryCache.set, if_pos hcond, MemoryCache.evictOldest, ho]
    have haccess : (m.set key item now).access_times =
        alSet (alDel m.access_times o) key now := by
      simp only [MemoryCache.set, if_pos hcond, MemoryCache.evictOldest, ho]
    have hmax : (m.set key item now).max_items = m.max_items := by
      simp only [MemoryCache.set, if_pos hcond, MemoryCache.evictOldest, ho]
    have hdelkeys : alKeys (alDel m.cache o) = (alKeys m.cache).erase o :=
      alKeys_alDel _ _
    refine ⟨?_, ?_, ?_, ?_⟩
    · rw [haccess, hcache, alKeys_alSet, alKeys_alSet, alKeys_alDel, alKeys_alDel, hk]
    · rw [hcache, alKeys_alSet, hdelkeys, if_neg hkeynot']
      exact nodup_append_singleton (hnd.erase o) hkeynot'
    · rw [hcache, hmax, length_alSet, hdelkeys, if_neg hkeynot']
      have hdl : (alDel m.cache o).length = m.cache.length - 1 := by
        have h1 : (alKeys (alDel m.cache o)).length = ((alKeys m.cache).erase o).length :=
          congrArg List.length hdelkeys
        have h2 := List.length_erase_of_mem homem
        simpa [alKeys] using h1.trans h2
      omega
    · rw [hmax]
      exact hpos
  · have hcache : (m.set key item now).cache = alSet m.cache key item := by
      simp only [MemoryCache.set, if_neg hcond]
    have haccess : (m.set key item now).access_times = alSet m.access_times key now := by
      simp only [MemoryCache.set, if_neg hcond]
    have hmax : (m.set key item now).max_items = m.max_items := by
      simp only [MemoryCache.set, if_neg hcond]
    refine ⟨?_, ?_, ?_, ?_⟩
    · rw [haccess, hcache, alKeys_alSet, alKeys_alSet, hk]
    · rw [hcache, alKeys_alSet]
      by_cases hm : key ∈ alKeys m.cache
      · rw [if_pos hm]
        exact hnd
      · rw [if_neg hm]
        exact nodup_append_singleton hnd hm
    · rw [hcache, hmax, length_alSet]
      by_cases hm : key ∈ alKeys m.cache
      · rw [if_pos hm]
        exact hlen
      · rw [if_neg hm]
        have hnotfull : ¬ m.cache.length ≥ m.max_items := fun hge =>
          hcond ⟨hge, by
            rw [Option.isNone_iff_eq_none]
            exact (alGet_eq_none_iff _ _).mpr hm⟩
        omega
    · rw [hmax]
      exact hpos

lemma memInv_get (m : MemoryCache) (k : String) (now : Int)
    (h : MemInv m) : MemInv (m.get k now).2 := by
  obtain ⟨hk, hnd, hlen, hpos⟩ := h
  cases hg : alGet m.cache k with
  | none => simpa [MemoryCache.get, hg] using ⟨hk, hnd, hlen, hpos⟩
  | some it =>
    have hkm : k ∈ alKeys m.cache := mem_alKeys_of_alGet_some hg
    have hka : k ∈ alKeys m.access_times := hk ▸ hkm
    by_cases he : it.isExpired now = true
    · have hst : (m.get k now).2 =
          { m with cache := alDel m.cache k, access_times := alDel m.access_times k } := by
        simp [MemoryCache.get, hg, he]
      rw [hst]
      refine ⟨?_, ?_, ?_, hpos⟩
      · show alKeys (alDel m.access_times k) = alKeys (alDel m.cache k)
        rw [alKeys_alDel, alKeys_alDel, hk]
      · show (alKeys (alDel m.cache k)).Nodup
        rw [alKeys_alDel]
        exact hnd.erase k
      · show (alDel m.cache k).length ≤ m.max_items
        have hsub : (alKeys (alDel m.cache k)).length ≤ (alKeys m.cache).length := by
          rw [alKeys_alDel]
          exact (List.erase_sublist _ _).length_le
        simp only [alKeys, List.length_map] at hsub
        omega
    · have hef : it.isExpired now = false := by
        cases hx : it.isExpired now
        · rfl
        · exact absurd hx he
      have hst : (m.get k now).2 =
          { m with cache := alSet m.cache k { it with hits := it.hits + 1 },
                   access_times := alSet m.access_times k now } := by
        simp [MemoryCache.get, hg, hef]
      rw [hst]
      refine ⟨?_, ?_, ?_, hpos⟩
      · show alKeys (alSet m.access_times k now) =
          alKeys (alSet m.cache k { it with hits := it.hits + 1 })
        rw [alKeys_alSet, alKeys_alSet, hk]
      · show (alKeys (alSet m.cache k { it with hits := it.hits + 1 })).Nodup
        rw [alKeys_alSet, if_pos hkm]
        exact hnd
      · show (alSet m.cache k { it with hits := it.hits + 1 }).length ≤ m.max_items
        rw [length_alSet, if_pos hkm]
        exact hlen

lemma memInv_delete (m : MemoryCache) (k : String) (h : MemInv m) :
    MemInv (m.delete k) := by
  obtain ⟨hk, hnd, hlen, hpos⟩ := h
  refine ⟨?_, ?_, ?_, hpos⟩
  · show alKeys (alDel m.access_times k) = alKeys (alDel m.cache k)
    rw [alKeys_alDel, alKeys_alDel, hk]
  · show (alKeys (alDel m.cache k)).Nodup
    rw [alKeys_alDel]
    exact hnd.erase k
  · show (alDel m.cache k).length ≤ m.max_items
    have hsub : (alKeys (alDel m.cache k)).length ≤ (alKeys m.cache).length := by
      rw [alKeys_alDel]
      exact (List.erase_sublist _ _).length_le
    simp only [alKeys, List.length_map] at hsub
    omega

lemma memInv_step (m : MemoryCache) (op : CacheOp) (h : MemInv m) :
    MemInv (m.step op) := by
  cases op with
  | get k now => exact memInv_get m k now h
  | set k it now => exact memInv_set m k it now h
  | del k => exact memInv_delete m k h

lemma max_items_evict (m : MemoryCache) : m.evictOldest.max_items = m.max_items := by
  cases ho : alArgmin m.access_times <;> simp [MemoryCache.evictOldest, ho]

lemma max_items_step (m : MemoryCache) (op : CacheOp) :
    (m.step op).max_items = m.max_items := by
  cases op with
  | get k now =>
    cases hg : alGet m.cache k with
    | none => simp [MemoryCache.step, MemoryCache.get, hg]
    | some it =>
      cases he : it.isExpired now <;> simp [MemoryCache.step, MemoryCache.get, hg, he]
  | set k it now =>
    simp only [MemoryCache.step, MemoryCache.set]
    split <;> simp [max_items_evict]
  | del k => rfl

lemma memInv_run (ops : List CacheOp) :
    ∀ m : MemoryCache, MemInv m →
      MemInv (m.run ops) ∧ (m.run ops).max_items = m.max_items := by
  induction ops with
  | nil => intro m h; exact ⟨h, rfl⟩
  | cons op rest ih =>
    intro m h
    obtain ⟨hi, hm⟩ := ih (m.step op) (memInv_step m op h)
    exact ⟨by simpa [MemoryCache.run] using hi,
      by simpa [MemoryCache.run, max_items_step m op] using hm⟩

/-- C10: for every in-process cache with `max_items ≥ 1`, after any
finite sequence of get/set/delete operations from the empty cache, the
number of stored items never exceeds `max_items`, and the item map and
the access-timestamp map always hold exactly the same keys. -/
theorem memory_cache_bounded_and_synced (maxItems : Nat) (ops : List CacheOp)
    (hpos : 1 ≤ maxItems) :
    ((MemoryCache.empty maxItems).run ops).cache.length ≤ maxItems ∧
    alKeys ((MemoryCache.empty maxItems).run ops).cache =
      alKeys ((MemoryCache.empty maxItems).run ops).access_times := by
  have hinit : MemInv (MemoryCache.empty maxItems) := by
    refine ⟨rfl, List.nodup_nil, ?_, hpos⟩
    simp [MemoryCache.empty]
  obtain ⟨⟨hk, _, hlen, _⟩, hmax⟩ := memInv_run ops (MemoryCache.empty maxItems) hinit
  refine ⟨?_, hk.symm⟩
  rw [hmax] at hlen
  exact hlen

/-- Witness for C10 at `max_items = 1` and a concrete operation
sequence: two inserts (forcing an eviction), a read and a delete. -/
theorem memory_cache_bounded_and_synced_witness :
    ((MemoryCache.empty 1).run
      [CacheOp.set "a" ⟨"a", PyVal.pnone, 0, 100, 0⟩ 0,
       CacheOp.set "b" ⟨"b", PyVal.pnone, 1, 100, 0⟩ 1,
       CacheOp.get "b" 2,
       CacheOp.del "b"]).cache.length ≤ 1 ∧
    alKeys ((MemoryCache.empty 1).run
      [CacheOp.set "a" ⟨"a", PyVal.pnone, 0, 100, 0⟩ 0,
       CacheOp.set "b" ⟨"b", PyVal.pnone, 1, 100, 0⟩ 1,
       CacheOp.get "b" 2,
       CacheOp.del "b"]).cache =
      alKeys ((MemoryCache.empty 1).run
        [CacheOp.set "a" ⟨"a", PyVal.pnone, 0, 100, 0⟩ 0,
         CacheOp.set "b" ⟨"b", PyVal.pnone, 1, 100, 0⟩ 1,
         CacheOp.get "b" 2,
         CacheOp.del "b"]).access_times :=
  memory_cache_bounded_and_synced 1
    [CacheOp.set "a" ⟨"a", PyVal.pnone, 0, 100, 0⟩ 0,
     CacheOp.set "b" ⟨"b", PyVal.pnone, 1, 100, 0⟩ 1,
     CacheOp.get "b" 2,
     CacheOp.del "b"] (by decide)

/-- C8 counterexample: with primary "p" and records B (healthy,
priority 2) then A (healthy, priority 1), `determine_active_region`
returns "B", the first healthy record in list order, not "A", the
healthy region with the lowest priority number as the claim states. -/
theorem active_region_not_lowest_priority :
    determine_active_region "p"
      [⟨"B", "healthy", 2⟩, ⟨"A", "healthy", 1⟩] = "B" ∧
    ¬ (determine_active_region "p"
      [⟨"B", "healthy", 2⟩, ⟨"A", "healthy", 1⟩] = "A") := by
  decide

/-- C8 amended: if the primary's record reports healthy, the primary is
returned; if no record reports healthy, the primary is returned without
raising (the no-healthy condition is logged at error severity);
otherwise the function returns the region of the FIRST healthy record in
the input list order — the priority field is never consulted, so this
equals the lowest-priority-number healthy region only when the input
list is ordered by ascending priority, as the health-check handler
builds it. -/
theorem determine_active_region_spec (primary : String) (configs : List RegionRecord) :
    ((∀ c ∈ configs, c.status ≠ "healthy") →
      determine_active_region primary configs = primary) ∧
    ((∃ c ∈ configs, c.region_name = primary ∧ c.status = "healthy") →
      determine_active_region primary configs = primary) ∧
    (∀ c₀, (configs.filter (fun c => decide (c.status = "healthy"))).head? = some c₀ →
      (∀ c ∈ configs, c.status = "healthy" → c.region_name ≠ primary) →
      determine_active_region primary configs = c₀.region_name) := by
  refine ⟨?_, ?_, ?_⟩
  · intro hall
    have hnil : configs.filter (fun c => decide (c.status = "healthy")) = [] := by
      rw [List.filter_eq_nil_iff]
      intro c hc
      simp [hall c hc]
    simp [determine_active_region, hnil]
  · rintro ⟨c, hc, hname, hstatus⟩
    have hmem : c ∈ configs.filter (fun c => decide (c.status = "healthy")) := by
      rw [List.mem_filter]
      exact ⟨hc, by simp [hstatus]⟩
    have hne : configs.filter (fun c => decide (c.status = "healthy")) ≠ [] := by
      intro hx
      rw [hx] at hmem
      cases hmem
    have hfind : ((configs.filter (fun c => decide (c.status = "healthy"))).find?
        (fun c => decide (c.region_name = primary))).isSome := by
      rw [List.find?_isSome]
      exact ⟨c, hmem, by simp [hname]⟩
    have hie : ¬ ((configs.filter (fun c => decide (c.status = "healthy"))).isEmpty = true) := by
      rw [List.isEmpty_iff]
      exact hne
    simp only [determine_active_region]
    rw [if_neg hie, if_pos hfind]
  · intro c₀ hhead hnone
    have hne : configs.filter (fun c => decide (c.status = "healthy")) ≠ [] := by
      intro hx
      rw [hx] at hhead
      cases hhead
    have hfind : ((configs.filter (fun c => decide (c.status = "healthy"))).find?
        (fun c => decide (c.region_name = primary))) = none := by
      rw [List.find?_eq_none]
      intro c hc
      rw [List.mem_filter] at hc
      have hst : c.status = "healthy" := by simpa using hc.2
      simp [hnone c hc.1 hst]
    have hie : ¬ ((configs.filter (fun c => decide (c.status = "healthy"))).isEmpty = true) := by
      rw [List.isEmpty_iff]
      exact hne
    have hfs : ¬ (((configs.filter (fun c => decide (c.status = "healthy"))).find?
        (fun c => decide (c.region_name = primary))).isSome = true) := by
      rw [hfind]
      simp
    simp only [determine_active_region]
    rw [if_neg hie, if_neg hfs, hhead]

/-- Witness for the amended C8 on concrete record lists: all-unhealthy
falls back to the primary, a healthy primary wins, and otherwise the
first healthy record in list order is chosen. -/
theorem determine_active_region_spec_witness :
    determine_active_region "p"
      [⟨"B", "unhealthy", 2⟩, ⟨"A", "unhealthy", 1⟩] = "p" ∧
    determine_active_region "p"
      [⟨"B", "healthy", 2⟩, ⟨"p", "healthy", 1⟩] = "p" ∧
    determine_active_region "p"
      [⟨"B", "healthy", 2⟩, ⟨"A", "healthy", 1⟩] = "B" := by
  refine ⟨?_, ?_, ?_⟩
  · exact (determine_active_region_spec "p"
      [⟨"B", "unhealthy", 2⟩, ⟨"A", "unhealthy", 1⟩]).1 (by decide)
  · exact (determine_active_region_spec "p"
      [⟨"B", "healthy", 2⟩, ⟨"p", "healthy", 1⟩]).2.1
      ⟨⟨"p", "healthy", 1⟩, by decide, rfl, rfl⟩
  · exact (determine_active_region_spec "p"
      [⟨"B", "healthy", 2⟩, ⟨"A", "healthy", 1⟩]).2.2
      ⟨"B", "healthy", 2⟩ (by decide) (by decide)

/-- A healthy observation of the current region resets the counter and
performs no failover. -/
lemma performFailover_healthy (cfg : MultiRegionConfig) (h : String → Bool)
    (now : Int) (st : MRState) (henb : cfg.failover_enabled = true)
    (hcur : h st.current_region = true) :
    performFailover cfg h now st = (none, { st with failure_count := 0 }) := by
  simp [performFailover, shouldFailover, henb, hcur]

/-- One `perform_failover` invocation: the counter grows by at most one,
and either the region is unchanged or the flip conditions held and the
state was reset. -/
lemma performFailover_cases (cfg : MultiRegionConfig) (h : String → Bool)
    (now : Int) (st : MRState) (henb : cfg.failover_enabled = true) :
    (performFailover cfg h now st).2.failure_count ≤ st.failure_count + 1 ∧
    ((performFailover cfg h now st).2.current_region = st.current_region ∨
      (h st.current_region = false ∧
       cfg.failover_threshold ≤ st.failure_count + 1 ∧
       now - st.last_failover_time > 300 ∧
       (performFailover cfg h now st).2.failure_count = 0 ∧
       (performFailover cfg h now st).2.last_failover_time = now)) := by
  by_cases hcur : h st.current_region
  · rw [performFailover_healthy cfg h now st henb hcur]
    exact ⟨by simp, Or.inl rfl⟩
  · have hcur' : h st.current_region = false := by
      cases hx : h st.current_region
      · rfl
      · exact absurd hx hcur
    by_cases hcond : cfg.failover_threshold ≤ st.failure_count + 1 ∧
        now - st.last_failover_time > 300
    · cases hf : (List.insertionSort (fun a b => a.priority ≤ b.priority) cfg.regions).find?
          (fun r => decide (r.region_name ≠ st.current_region) &&
            decide (r.status = RegionStatus.active) && h r.region_name) with
      | none =>
        have hpf : performFailover cfg h now st =
            (none, { st with failure_count := st.failure_count + 1 }) := by
          simp only [decide_not] at hf
          simp [performFailover, shouldFailover, henb, hcur', hcond, ge_iff_le, hf]
        rw [hpf]
        exact ⟨by simp, Or.inl rfl⟩
      | some r =>
        have hpf : performFailover cfg h now st =
            (some r.region_name, ⟨r.region_name, 0, now⟩) := by
          simp only [decide_not] at hf
          simp [performFailover, shouldFailover, henb, hcur', hcond, ge_iff_le, hf]
        rw [hpf]
        exact ⟨by simp, Or.inr ⟨hcur', hcond.1, hcond.2, rfl, rfl⟩⟩
    · have hpf : performFailover cfg h now st =
          (none, { st with failure_count := st.failure_count + 1 }) := by
        simp only [performFailover, shouldFailover, henb, hcur', ge_iff_le]
        simp [hcond]
      rw [hpf]
      exact ⟨by simp, Or.inl rfl⟩

/-- A completed failover switches to the returned region, resets the
counter and records the failover time. -/
lemma performFailover_some (cfg : MultiRegionConfig) (h : String → Bool)
    (now : Int) (st : MRState) (r : String) (henb : cfg.failover_enabled = true)
    (hres : (performFailover cfg h now st).1 = some r) :
    (performFailover cfg h now st).2 = ⟨r, 0, now⟩ ∧ r ≠ st.current_region := by
  by_cases hcur : h st.current_region
  · rw [performFailover_healthy cfg h now st henb hcur] at hres
    cases hres
  · have hcur' : h st.current_region = false := by
      cases hx : h st.current_region
      · rfl
      · exact absurd hx hcur
    by_cases hcond : cfg.failover_threshold ≤ st.failure_count + 1 ∧
        now - st.last_failover_time > 300
    · cases hf : (List.insertionSort (fun a b => a.priority ≤ b.priority) cfg.regions).find?
          (fun r => decide (r.region_name ≠ st.current_region) &&
            decide (r.status = RegionStatus.active) && h r.region_name) with
      | none =>
        have hpf : performFailover cfg h now st =
            (none, { st with failure_count := st.failure_count + 1 }) := by
          simp only [decide_not] at hf
          simp [performFailover, shouldFailover, henb, hcur', hcond, ge_iff_le, hf]
        rw [hpf] at hres
        cases hres
      | some r₀ =>
        have hpf : performFailover cfg h now st =
            (some r₀.region_name, ⟨r₀.region_name, 0, now⟩) := by
          simp only [decide_not] at hf
          simp [performFailover, shouldFailover, henb, hcur', hcond, ge_iff_le, hf]
        have hpred := List.find?_some hf
        simp only [Bool.and_eq_true, decide_eq_true_eq] at hpred
        rw [hpf] at hres
        have hr : r₀.region_name = r := by
          simpa using hres
        rw [hpf]
        exact ⟨by rw [hr], hr ▸ hpred.1.1⟩
    · have hpf : performFailover cfg h now st =
          (none, { st with failure_count := st.failure_count + 1 }) := by
        simp only [performFailover, shouldFailover, henb, hcur', ge_iff_le]
        simp [hcond]
      rw [hpf] at hres
      cases hres

/-- Fewer observations than the threshold can never change the active
region once the counter starts at or below its true value. -/
lemma runFailover_bounded (cfg : MultiRegionConfig) (henb : cfg.failover_enabled = true) :
    ∀ (obs : List MRObs) (st : MRState),
      st.failure_count + obs.length < cfg.failover_threshold →
      (runFailover cfg st obs).current_region = st.current_region := by
  intro obs
  induction obs with
  | nil => intro st _; rfl
  | cons o rest ih =>
    intro st hlt
    simp only [List.length_cons] at hlt
    obtain ⟨hfc, hreg⟩ := performFailover_cases cfg o.health o.now st henb
    have hregion : (performFailover cfg o.health o.now st).2.current_region =
        st.current_region := by
      rcases hreg with hsame | ⟨_, hth, _⟩
      · exact hsame
      · omega
    have hrec := ih (performFailover cfg o.health o.now st).2 (by omega)
    simp only [runFailover]
    rw [hrec, hregion]

/-- C9: failover hysteresis (with failover enabled). A healthy
observation of the current region resets the consecutive-failure counter
and never fails over; the active region changes in a step only if the
current region was observed unhealthy, the incremented counter reached
`failover_threshold`, and strictly more than the fixed 300-second
cooldown elapsed since the last failover; a completed failover switches
to the returned region, resets the counter to 0 and records the failover
timestamp; and from a reset counter, strictly fewer observations than
the threshold never change the active region. -/
theorem failover_hysteresis (cfg : MultiRegionConfig)
    (henb : cfg.failover_enabled = true) :
    (∀ (h : String → Bool) (now : Int) (st : MRState), h st.current_region = true →
      performFailover cfg h now st = (none, { st with failure_count := 0 })) ∧
    (∀ (h : String → Bool) (now : Int) (st : MRState),
      (performFailover cfg h now st).2.current_region ≠ st.current_region →
      h st.current_region = false ∧
      cfg.failover_threshold ≤ st.failure_count + 1 ∧
      now - st.last_failover_time > 300) ∧
    (∀ (h : String → Bool) (now : Int) (st : MRState) (r : String),
      (performFailover cfg h now st).1 = some r →
      (performFailover cfg h now st).2 = ⟨r, 0, now⟩ ∧ r ≠ st.current_region) ∧
    (∀ (obs : List MRObs) (st : MRState),
      st.failure_count + obs.length < cfg.failover_threshold →
      (runFailover cfg st obs).current_region = st.current_region) := by
  refine ⟨fun h now st hcur => performFailover_healthy cfg h now st henb hcur,
    fun h now st hne => ?_,
    fun h now st r hres => performFailover_some cfg h now st r henb hres,
    runFailover_bounded cfg henb⟩
  obtain ⟨_, hreg⟩ := performFailover_cases cfg h now st henb
  rcases hreg with hsame | ⟨hcur, hth, hcool, _⟩
  · exact absurd hsame hne
  · exact ⟨hcur, hth, hcool⟩

/-- Witness for C9 on a two-region config with threshold 3: a healthy
observation resets the counter without a flip; a call with counter 2,
unhealthy primary and healthy secondary after the cooldown flips to the
secondary at time 400 with the counter reset; and two observations never
flip from a fresh state. -/
theorem failover_hysteresis_witness :
    let cfg : MultiRegionConfig :=
      { primary_region := "p",
        regions := [⟨"p", RegionStatus.active, 1⟩, ⟨"s", RegionStatus.active, 2⟩],
        failover_enabled := true, failover_threshold := 3 }
    performFailover cfg (fun _ => true) 10 ⟨"p", 2, 0⟩ =
      (none, { current_region := "p", failure_count := 0, last_failover_time := 0 }) ∧
    ((performFailover cfg (fun r => decide (r = "s")) 400 ⟨"p", 2, 0⟩).2 =
        ⟨"s", 0, 400⟩ ∧ "s" ≠ "p") ∧
    (runFailover cfg ⟨"p", 0, 0⟩
      [⟨fun _ => false, 10⟩, ⟨fun _ => false, 20⟩]).current_region = "p" := by
  intro cfg
  refine ⟨?_, ?_, ?_⟩
  · exact (failover_hysteresis cfg rfl).1 (fun _ => true) 10 ⟨"p", 2, 0⟩ rfl
  · exact (failover_hysteresis cfg rfl).2.2.1 (fun r => decide (r = "s")) 400
      ⟨"p", 2, 0⟩ "s" (by decide)
  · exact (failover_hysteresis cfg rfl).2.2.2
      [⟨fun _ => false, 10⟩, ⟨fun _ => false, 20⟩] ⟨"p", 0, 0⟩ (by decide)

end Archon
